import Mathlib

/-!
Shallow embedding of the `kuid` Go package (src/kuid.go).

Strings are modelled as `List Char` (all relevant data is ASCII, where Go's
byte indexing and Lean's character indexing agree); bytes are `Nat` values
below 256; `uint64` arithmetic is `Nat` with an explicit `% 2^64` where the
Go code can wrap.
-/

deriving instance DecidableEq for Except

namespace Kuid

/-- The error values of the package: the three sentinels
`ErrInvalidLength`, `ErrInvalidChar`, `ErrInvalidUUID`, and the ad-hoc
`errors.New("byte slice must be exactly 16 bytes")` created inside
`FromBytes`, which is a distinct error value. -/
inductive GoErr where
  | invalidLength
  | invalidChar
  | invalidUUID
  | bytesNot16
deriving DecidableEq, Repr

/-- Result of a Go function that can also panic (index out of range):
`FromUUID` indexes `uuid[8]` etc. without a guard, because its length
check is dead code. -/
inductive GoResult (α : Type) where
  | panicked
  | err (e : GoErr)
  | ok (a : α)
deriving DecidableEq, Repr

/-- Go's `type KUID struct { msb uint64; lsb uint64 }`. -/
structure KUID where
  msb : Nat
  lsb : Nat
deriving DecidableEq, Repr

/-- The alphabet `base62Chars = "0123456789ABCDEFGHIJKLMNOPQRSTUVWXYZabcdefghijklmnopqrstuvwxyz"`. -/
def base62Chars : List Char :=
  "0123456789ABCDEFGHIJKLMNOPQRSTUVWXYZabcdefghijklmnopqrstuvwxyz".toList

/-- The constant `base = uint64(len(base62Chars))`. -/
def base : Nat := base62Chars.length

/-- The constant `size = 11`, the width of each encoded long. -/
def size : Nat := 11

/-- The modulus `2^64` of Go's `uint64` arithmetic. -/
def M64 : Nat := 2 ^ 64

/-- Big-endian digit expansion: `digitsBE b n v` is the `n`-digit base-`b`
expansion of `v`, most significant digit first (the digit list produced by a
repeated `v % b` / `v / b` loop filling positions from the right). -/
def digitsBE (b : Nat) : Nat → Nat → List Nat
  | 0, _ => []
  | n + 1, v => digitsBE b n (v / b) ++ [v % b]

/-- Big-endian accumulation `value = value*b + digit`, the value of a
digit list (as Go's `binary.BigEndian.Uint64` computes it by shift-or). -/
def valBE (b : Nat) (l : List Nat) : Nat :=
  l.foldl (fun a d => a * b + d) 0

/-- Go's `strings.HasPrefix` on character lists. -/
def strHasPre : List Char → List Char → Bool
  | [], _ => true
  | _ :: _, [] => false
  | p :: ps, c :: cs => p == c && strHasPre ps cs

/-- Go's `strings.IndexByte` on a character list, returning `none` instead
of `-1` when the character is absent. -/
def charIndex : List Char → Char → Option Nat
  | [], _ => none
  | a :: as, c => if a = c then some 0 else (charIndex as c).map (· + 1)

/-- The digit value of a base-62 character (defined when the character is
in the alphabet; 0 otherwise). -/
def digitOf (c : Char) : Nat := (charIndex base62Chars c).getD 0

/-- The body of `encodeLong`: the Go loop
`for i := size-1; i >= 0; i-- { bytes[i] = base62Chars[value%base]; value /= base }`,
filling an accumulator from the right. -/
def encodeAux : Nat → Nat → List Char → List Char
  | 0, _, acc => acc
  | n + 1, v, acc => encodeAux n (v / base) (base62Chars.getD (v % base) '0' :: acc)

/-- The function `encodeLong` encodes a uint64 to base62, fixed width `size = 11`. -/
def encodeLong (v : Nat) : List Char := encodeAux size v []

/-- The accumulation loop of `decodeLong`: `value = value*base + uint64(digit)`
on `uint64`, hence reduced `% 2^64` at each step. -/
def decodeAux : List Char → Nat → Except GoErr Nat
  | [], v => .ok v
  | c :: cs, v =>
    match charIndex base62Chars c with
    | none => .error .invalidChar
    | some d => decodeAux cs ((v * base + d) % M64)

/-- The function `decodeLong` decodes a base62 string back to uint64. -/
def decodeLong (s : List Char) : Except GoErr Nat :=
  if s.length ≠ size then .error .invalidLength
  else decodeAux s 0

/-- Go's `func (k KUID) String() string { return encodeLong(k.msb) + encodeLong(k.lsb) }`. -/
def kuidString (k : KUID) : List Char := encodeLong k.msb ++ encodeLong k.lsb

/-- The constructor `FromString` creates a KUID from its 22-character representation. -/
def fromString (s : List Char) : Except GoErr KUID :=
  if s.length ≠ size * 2 then .error .invalidLength
  else
    match decodeLong (s.take size) with
    | .error e => .error e
    | .ok msb =>
      match decodeLong (s.drop size) with
      | .error e => .error e
      | .ok lsb => .ok ⟨msb, lsb⟩

/-- Go's `binary.BigEndian.Uint64` of an 8-byte slice. -/
def beUint64 (l : List Nat) : Nat := valBE 256 l

/-- Go's `binary.BigEndian.PutUint64`: the 8 bytes of `v`, most significant first. -/
def putUint64 (v : Nat) : List Nat := digitsBE 256 8 v

/-- The constructor `FromBytes`: length must be exactly 16; bytes 0-7 become `msb`,
bytes 8-15 become `lsb`, big-endian. The error is the ad-hoc
`errors.New("byte slice must be exactly 16 bytes")`, not `ErrInvalidLength`. -/
def fromBytes (b : List Nat) : Except GoErr KUID :=
  if b.length ≠ 16 then .error .bytesNot16
  else .ok ⟨beUint64 (b.take 8), beUint64 (b.drop 8)⟩

/-- Go's `func (k *KUID) Bytes() []byte`: 16 bytes, big-endian halves. -/
def kuidBytes (k : KUID) : List Nat := putUint64 k.msb ++ putUint64 k.lsb

/-- Go's `func (k *KUID) Equal(other *KUID) bool`; `none` models a nil pointer. -/
def kuidEqual (k : KUID) (other : Option KUID) : Bool :=
  match other with
  | none => false
  | some o => k.msb == o.msb && k.lsb == o.lsb

/-- The character set `"0123456789abcdefABCDEF"` that `FromUUID` checks
each cleaned character against via `strings.ContainsRune`. -/
def hexAlphabet : List Char := "0123456789abcdefABCDEF".toList

/-- Go `encoding/hex` helper `fromHexChar`: the nibble value of one hex digit. -/
def hexCharVal (c : Char) : Option Nat :=
  if '0' ≤ c ∧ c ≤ '9' then some (c.toNat - '0'.toNat)
  else if 'a' ≤ c ∧ c ≤ 'f' then some (c.toNat - 'a'.toNat + 10)
  else if 'A' ≤ c ∧ c ≤ 'F' then some (c.toNat - 'A'.toNat + 10)
  else none

/-- The nibble value of a hex digit as a plain `Nat` (0 when invalid). -/
def hval (c : Char) : Nat := (hexCharVal c).getD 0

/-- Go's `hex.DecodeString`: consumes hex digits in pairs; fails on an odd
length or a non-hex character. -/
def hexDecode : List Char → Option (List Nat)
  | [] => some []
  | [_] => none
  | c1 :: c2 :: rest =>
    match hexCharVal c1, hexCharVal c2, hexDecode rest with
    | some h1, some h2, some bs => some ((h1 * 16 + h2) :: bs)
    | _, _, _ => none

/-- Go `encoding/hex` lowercase digit table `"0123456789abcdef"`. -/
def hexTable : List Char := "0123456789abcdef".toList

/-- Go's `hex.EncodeToString`: two lowercase hex digits per byte. -/
def hexEncode : List Nat → List Char
  | [] => []
  | b :: bs => hexTable.getD (b / 16) '0' :: hexTable.getD (b % 16) '0' :: hexEncode bs

/-- Lift the `error`-returning `FromBytes` into the panic-aware result
type used by `FromUUID`. -/
def exceptToResult : Except GoErr α → GoResult α
  | .ok a => .ok a
  | .error e => .err e

/-- The constructor `FromUUID`, modelled instruction by instruction:
* `if !strings.HasPrefix(uuid, "") && len(uuid) != 36` — the prefix test is
  always true, so this whole condition is always false and the length
  check never fires;
* the hyphen test `uuid[8] != '-' || uuid[13] != '-' || ...` indexes the
  string unguarded, left to right with short-circuit `||`, and panics when
  an index is out of range;
* `strings.ReplaceAll(uuid, "-", "")` removes every hyphen;
* the cleaned string must have length 32 and only hex characters;
* `hex.DecodeString` then `FromBytes`. -/
def fromUUID (s : List Char) : GoResult KUID :=
  if (!strHasPre [] s) && s.length != 36 then .err .invalidUUID
  else
    match s[8]? with
    | none => .panicked
    | some c8 =>
      if c8 != '-' then .err .invalidUUID
      else
        match s[13]? with
        | none => .panicked
        | some c13 =>
          if c13 != '-' then .err .invalidUUID
          else
            match s[18]? with
            | none => .panicked
            | some c18 =>
              if c18 != '-' then .err .invalidUUID
              else
                match s[23]? with
                | none => .panicked
                | some c23 =>
                  if c23 != '-' then .err .invalidUUID
                  else
                    let clean := s.filter (· ≠ '-')
                    if clean.length ≠ 32 then .err .invalidUUID
                    else if ¬ (∀ c ∈ clean, c ∈ hexAlphabet) then .err .invalidUUID
                    else
                      match hexDecode clean with
                      | none => .err .invalidUUID
                      | some bytes => exceptToResult (fromBytes bytes)

/-- Go's `func (k *KUID) ToUUID() string`: hex-encode the 16 bytes and insert
hyphens in the 8-4-4-4-12 pattern, via the slices
`uuid[0:8] + "-" + uuid[8:12] + "-" + uuid[12:16] + "-" + uuid[16:20] + "-" + uuid[20:]`. -/
def toUUID (k : KUID) : List Char :=
  let u := hexEncode (kuidBytes k)
  u.take 8 ++ ['-'] ++ (u.drop 8).take 4 ++ ['-'] ++ (u.drop 12).take 4
    ++ ['-'] ++ (u.drop 16).take 4 ++ ['-'] ++ u.drop 20

/-- The all-zero UUID string of the test suite. -/
def zeroUUID : List Char := "00000000-0000-0000-0000-000000000000".toList

/-- A 37-character input for `FromUUID`: the all-zero UUID with the fourth
hyphen doubled. Hyphens still sit at indices 8, 13, 18, 23, and removing
all hyphens leaves 32 hex digits. -/
def c1Input : List Char := "00000000-0000-0000-0000--000000000000".toList

/-! ### Generic positional-numeral lemmas -/

@[simp] theorem base_eq : base = 62 := by decide

theorem valBE_nil (b : Nat) : valBE b [] = 0 := rfl

theorem foldl_mulAdd (b : Nat) (l : List Nat) :
    ∀ a : Nat, l.foldl (fun x d => x * b + d) a = a * b ^ l.length + valBE b l := by
  induction l with
  | nil => intro a; simp [valBE]
  | cons d ds ih =>
    intro a
    show ds.foldl _ (a * b + d) = _
    rw [ih]
    have h2 : valBE b (d :: ds) = d * b ^ ds.length + valBE b ds := by
      show ds.foldl _ (0 * b + d) = _
      rw [ih]; ring_nf
    rw [h2]
    simp only [List.length_cons, pow_succ]
    ring

theorem valBE_cons (b d : Nat) (ds : List Nat) :
    valBE b (d :: ds) = d * b ^ ds.length + valBE b ds := by
  show ds.foldl _ (0 * b + d) = _
  rw [foldl_mulAdd]; ring_nf

theorem valBE_append_singleton (b x : Nat) (l : List Nat) :
    valBE b (l ++ [x]) = valBE b l * b + x := by
  show (l ++ [x]).foldl _ 0 = _
  rw [List.foldl_append]
  rfl

theorem digitsBE_length (b n v : Nat) : (digitsBE b n v).length = n := by
  induction n generalizing v with
  | zero => rfl
  | succ n ih => simp [digitsBE, ih]

theorem digitsBE_lt (b : Nat) (hb : 0 < b) (n v : Nat) :
    ∀ d ∈ digitsBE b n v, d < b := by
  induction n generalizing v with
  | zero => simp [digitsBE]
  | succ n ih =>
    intro d hd
    simp only [digitsBE, List.mem_append, List.mem_singleton] at hd
    rcases hd with hd | hd
    · exact ih (v / b) d hd
    · subst hd; exact Nat.mod_lt _ hb

theorem valBE_digitsBE (b n v : Nat) (hv : v < b ^ n) :
    valBE b (digitsBE b n v) = v := by
  induction n generalizing v with
  | zero =>
    rw [pow_zero] at hv
    simp [digitsBE, valBE_nil]
    omega
  | succ n ih =>
    have hb : 0 < b := by
      rcases Nat.eq_zero_or_pos b with h | h
      · subst h; simp at hv
      · exact h
    have hdiv : v / b < b ^ n := by
      rw [Nat.div_lt_iff_lt_mul hb]
      calc v < b ^ (n + 1) := hv
        _ = b ^ n * b := pow_succ b n
    simp only [digitsBE, valBE_append_singleton, ih (v / b) hdiv]
    rw [Nat.mul_comm (v / b) b]
    exact Nat.div_add_mod v b

theorem digitsBE_valBE (b : Nat) (l : List Nat) :
    ∀ n, l.length = n → (∀ d ∈ l, d < b) → digitsBE b n (valBE b l) = l := by
  induction l using List.reverseRecOn with
  | nil =>
    intro n hn _
    simp at hn; subst hn; rfl
  | append_singleton l' d ih =>
    intro n hn hd
    have hb : 0 < b := lt_of_le_of_lt (Nat.zero_le d) (hd d (by simp))
    have hlen : n = l'.length + 1 := by simpa using hn.symm
    subst hlen
    have hdb : d < b := hd d (by simp)
    have hmod : (valBE b l' * b + d) % b = d := by
      rw [Nat.add_comm, Nat.add_mul_mod_self_right, Nat.mod_eq_of_lt hdb]
    have hdivb : (valBE b l' * b + d) / b = valBE b l' := by
      rw [Nat.add_comm, Nat.add_mul_div_right _ _ hb, Nat.div_eq_of_lt hdb, Nat.zero_add]
    simp only [digitsBE, valBE_append_singleton, hmod, hdivb]
    rw [ih l'.length rfl (fun x hx => hd x (by simp [hx]))]

theorem valBE_lt (b : Nat) (l : List Nat) (hd : ∀ d ∈ l, d < b) :
    valBE b l < b ^ l.length := by
  induction l with
  | nil => simp [valBE_nil]
  | cons d ds ih =>
    have h1 : valBE b ds < b ^ ds.length := ih (fun x hx => hd x (by simp [hx]))
    have h2 : d + 1 ≤ b := hd d (by simp)
    calc valBE b (d :: ds) = d * b ^ ds.length + valBE b ds := valBE_cons b d ds
      _ < d * b ^ ds.length + b ^ ds.length := by omega
      _ = (d + 1) * b ^ ds.length := by ring
      _ ≤ b * b ^ ds.length := Nat.mul_le_mul_right _ h2
      _ = b ^ (ds.length + 1) := by rw [pow_succ]; ring
      _ = b ^ (d :: ds).length := by simp

theorem digitsBE_succ_of_lt (b : Nat) (hb : 0 < b) :
    ∀ n v, v < b ^ n → digitsBE b (n + 1) v = 0 :: digitsBE b n v := by
  intro n
  induction n with
  | zero =>
    intro v hv
    rw [pow_zero] at hv
    interval_cases v
    rfl
  | succ n ih =>
    intro v hv
    have hdiv : v / b < b ^ n := by
      rw [Nat.div_lt_iff_lt_mul hb]
      calc v < b ^ (n + 1) := hv
        _ = b ^ n * b := pow_succ b n
    show digitsBE b (n + 1 + 1) v = _
    calc digitsBE b (n + 1 + 1) v
        = digitsBE b (n + 1) (v / b) ++ [v % b] := rfl
      _ = (0 :: digitsBE b n (v / b)) ++ [v % b] := by rw [ih (v / b) hdiv]
      _ = 0 :: digitsBE b (n + 1) v := rfl

theorem digitsBE_leading_zeros (b : Nat) (hb : 0 < b) (k : Nat) :
    ∀ n v, v < b ^ n → digitsBE b (n + k) v = List.replicate k 0 ++ digitsBE b n v := by
  induction k with
  | zero => intro n v _; rfl
  | succ k ih =>
    intro n v hv
    have hv' : v < b ^ (n + k) :=
      lt_of_lt_of_le hv (Nat.pow_le_pow_right hb (Nat.le_add_right n k))
    calc digitsBE b (n + (k + 1)) v
        = digitsBE b ((n + k) + 1) v := by ring_nf
      _ = 0 :: digitsBE b (n + k) v := digitsBE_succ_of_lt b hb (n + k) v hv'
      _ = 0 :: (List.replicate k 0 ++ digitsBE b n v) := by rw [ih n v hv]
      _ = List.replicate (k + 1) 0 ++ digitsBE b n v := by
          rw [List.replicate_succ, List.cons_append]

/-! ### Alphabet and codec lemmas -/

theorem charIndex_eq_none (l : List Char) (c : Char) (h : c ∉ l) :
    charIndex l c = none := by
  induction l with
  | nil => rfl
  | cons a as ih =>
    simp only [List.mem_cons, not_or] at h
    simp only [charIndex, ih h.2, Option.map_none']
    rw [if_neg (by intro hac; exact h.1 hac.symm)]

theorem charIndex_isSome (l : List Char) (c : Char) (h : c ∈ l) :
    (charIndex l c).isSome := by
  induction l with
  | nil => simp at h
  | cons a as ih =>
    by_cases hac : a = c
    · simp [charIndex, hac]
    · have : c ∈ as := by
        rcases List.mem_cons.mp h with h' | h'
        · exact absurd h'.symm hac
        · exact h'
      simp only [charIndex, if_neg hac]
      rcases Option.isSome_iff_exists.mp (ih this) with ⟨d, hd⟩
      simp [hd]

theorem charIndex_mem (c : Char) (h : c ∈ base62Chars) :
    charIndex base62Chars c = some (digitOf c) := by
  rcases Option.isSome_iff_exists.mp (charIndex_isSome base62Chars c h) with ⟨d, hd⟩
  simp [digitOf, hd]

theorem charIndex_getD62 :
    ∀ d, d < 62 → charIndex base62Chars (base62Chars.getD d '0') = some d := by
  decide

theorem digitOf_getD62 (d : Nat) (hd : d < 62) :
    digitOf (base62Chars.getD d '0') = d := by
  show (charIndex base62Chars (base62Chars.getD d '0')).getD 0 = d
  rw [charIndex_getD62 d hd]
  rfl

theorem getD62_mem : ∀ d, d < 62 → base62Chars.getD d '0' ∈ base62Chars := by
  decide

theorem encodeAux_eq (n : Nat) :
    ∀ v acc, encodeAux n v acc =
      (digitsBE base n v).map (fun d => base62Chars.getD d '0') ++ acc := by
  induction n with
  | zero => intro v acc; rfl
  | succ n ih =>
    intro v acc
    show encodeAux n (v / base) _ = _
    rw [ih]
    simp [digitsBE]

theorem encodeLong_eq (v : Nat) :
    encodeLong v = (digitsBE 62 11 v).map (fun d => base62Chars.getD d '0') := by
  show encodeAux size v [] = _
  rw [encodeAux_eq]
  simp [size, base_eq]

theorem encodeLong_length (v : Nat) : (encodeLong v).length = 11 := by
  rw [encodeLong_eq]
  simp [digitsBE_length]

theorem mem_encodeLong (v : Nat) (c : Char) (h : c ∈ encodeLong v) :
    c ∈ base62Chars := by
  rw [encodeLong_eq] at h
  rcases List.mem_map.mp h with ⟨d, hd, hc⟩
  have : d < 62 := digitsBE_lt 62 (by norm_num) 11 v d hd
  exact hc ▸ getD62_mem d this

theorem map_digitOf_map_getD62 (l : List Nat) (h : ∀ d ∈ l, d < 62) :
    (l.map (fun d => base62Chars.getD d '0')).map digitOf = l := by
  induction l with
  | nil => rfl
  | cons d ds ih =>
    simp only [List.map_cons, List.cons.injEq]
    exact ⟨digitOf_getD62 d (h d (by simp)),
      ih (fun x hx => h x (by simp [hx]))⟩

theorem decodeAux_ok (s : List Char) :
    ∀ acc, acc < M64 → (∀ c ∈ s, c ∈ base62Chars) →
      decodeAux s acc = .ok ((acc * 62 ^ s.length + valBE 62 (s.map digitOf)) % M64) := by
  induction s with
  | nil =>
    intro acc hacc _
    simp [decodeAux, valBE_nil, Nat.mod_eq_of_lt hacc]
  | cons c cs ih =>
    intro acc hacc hmem
    have hc : c ∈ base62Chars := hmem c (by simp)
    have hM : 0 < M64 := by norm_num [M64]
    simp only [decodeAux, charIndex_mem c hc, base_eq]
    rw [ih _ (Nat.mod_lt _ hM) (fun x hx => hmem x (by simp [hx]))]
    congr 1
    have hmodeq : ((acc * 62 + digitOf c) % M64) * 62 ^ cs.length + valBE 62 (cs.map digitOf)
        ≡ (acc * 62 + digitOf c) * 62 ^ cs.length + valBE 62 (cs.map digitOf) [MOD M64] :=
      ((Nat.mod_modEq (acc * 62 + digitOf c) M64).mul_right _).add_right _
    rw [Nat.ModEq] at hmodeq
    rw [hmodeq]
    congr 1
    simp only [List.map_cons, valBE_cons, List.length_map, List.length_cons, pow_succ]
    ring

theorem decodeAux_err (s : List Char) (hbad : ∃ c ∈ s, c ∉ base62Chars) :
    ∀ acc, decodeAux s acc = .error .invalidChar := by
  induction s with
  | nil => simp at hbad
  | cons c cs ih =>
    intro acc
    by_cases hc : c ∈ base62Chars
    · rcases hbad with ⟨x, hx, hxn⟩
      have hxcs : x ∈ cs := by
        rcases List.mem_cons.mp hx with h' | h'
        · exact absurd (h' ▸ hc) hxn
        · exact h'
      simp only [decodeAux, charIndex_mem c hc]
      exact ih ⟨x, hxcs, hxn⟩ _
    · simp [decodeAux, charIndex_eq_none base62Chars c hc]

theorem decodeLong_ok (s : List Char) (hlen : s.length = 11)
    (hmem : ∀ c ∈ s, c ∈ base62Chars) :
    decodeLong s = .ok (valBE 62 (s.map digitOf) % M64) := by
  rw [decodeLong, if_neg (by simp [hlen, size])]
  rw [decodeAux_ok s 0 (by norm_num [M64]) hmem]
  simp

theorem pow62_11_gt : M64 < 62 ^ 11 := by norm_num [M64]

theorem decode_encode (v : Nat) (hv : v < M64) :
    decodeLong (encodeLong v) = .ok v := by
  have hdig : ∀ d ∈ digitsBE 62 11 v, d < 62 := digitsBE_lt 62 (by norm_num) 11 v
  rw [decodeLong_ok (encodeLong v) (encodeLong_length v) (mem_encodeLong v)]
  rw [encodeLong_eq, map_digitOf_map_getD62 _ hdig,
    valBE_digitsBE 62 11 v (lt_trans hv pow62_11_gt)]
  rw [Nat.mod_eq_of_lt hv]

theorem encodeLong_inj (a b : Nat) (ha : a < M64) (hb : b < M64)
    (h : encodeLong a = encodeLong b) : a = b := by
  have := decode_encode a ha
  rw [h, decode_encode b hb] at this
  simpa using this.symm

/-! ### Byte-conversion lemmas -/

theorem pow256_8 : (256 : Nat) ^ 8 = M64 := by norm_num [M64]

theorem putUint64_beUint64 (l : List Nat) (h8 : l.length = 8)
    (hb : ∀ x ∈ l, x < 256) : putUint64 (beUint64 l) = l :=
  digitsBE_valBE 256 l 8 h8 hb

theorem beUint64_putUint64 (v : Nat) (hv : v < M64) : beUint64 (putUint64 v) = v :=
  valBE_digitsBE 256 8 v (by rw [pow256_8]; exact hv)

theorem beUint64_lt (l : List Nat) (h8 : l.length = 8)
    (hb : ∀ x ∈ l, x < 256) : beUint64 l < M64 := by
  have h := valBE_lt 256 l hb
  rw [h8, pow256_8] at h
  exact h

theorem kuidString_length (k : KUID) : (kuidString k).length = 22 := by
  simp [kuidString, encodeLong_length]

/-! ### Hex-codec lemmas -/

theorem hexProps : ∀ c ∈ hexAlphabet,
    hexCharVal c = some (hval c) ∧ hval c < 16 ∧
      hexTable.getD (hval c) '0' = c.toLower ∧ c ≠ '-' := by
  decide

theorem hexEncode_append (a b : List Nat) :
    hexEncode (a ++ b) = hexEncode a ++ hexEncode b := by
  induction a with
  | nil => rfl
  | cons x xs ih => simp [hexEncode, ih]

theorem hexDecode_ok :
    ∀ (n : Nat) (s : List Char), s.length = 2 * n → (∀ c ∈ s, c ∈ hexAlphabet) →
      ∃ bs : List Nat, hexDecode s = some bs ∧ bs.length = n ∧
        (∀ x ∈ bs, x < 256) ∧ hexEncode bs = s.map Char.toLower := by
  intro n
  induction n with
  | zero =>
    intro s hlen _
    have : s = [] := List.eq_nil_of_length_eq_zero (by omega)
    subst this
    exact ⟨[], rfl, rfl, by simp, rfl⟩
  | succ n ih =>
    intro s hlen hmem
    match s with
    | [] => simp at hlen
    | [_] => simp at hlen; omega
    | c1 :: c2 :: rest =>
      have hc1 := hexProps c1 (hmem c1 (by simp))
      have hc2 := hexProps c2 (hmem c2 (by simp))
      have hrest : rest.length = 2 * n := by simp at hlen; omega
      obtain ⟨bs, hbs, hblen, hblt, henc⟩ :=
        ih rest hrest (fun c hc => hmem c (by simp [hc]))
      refine ⟨(hval c1 * 16 + hval c2) :: bs, ?_, by simp [hblen], ?_, ?_⟩
      · show hexDecode (c1 :: c2 :: rest) = _
        simp only [hexDecode]
        rw [hc1.1, hc2.1, hbs]
      · intro x hx
        rcases List.mem_cons.mp hx with hx | hx
        · have := hc1.2.1; have := hc2.2.1; omega
        · exact hblt x hx
      · have hdiv : (hval c1 * 16 + hval c2) / 16 = hval c1 := by
          have := hc2.2.1; omega
        have hmod : (hval c1 * 16 + hval c2) % 16 = hval c2 := by
          have := hc2.2.1; omega
        show hexTable.getD _ '0' :: hexTable.getD _ '0' :: hexEncode bs = _
        rw [hdiv, hmod, hc1.2.2.1, hc2.2.2.1, henc]
        rfl

/-! ### List-plumbing helpers for the UUID format -/

theorem strHasPre_nil (s : List Char) : strHasPre [] s = true := rfl

theorem getIdx_append (l1 l2 : List Char) (c : Char) (n : Nat)
    (h : l1.length = n) : (l1 ++ c :: l2)[n]? = some c := by
  subst h
  rw [List.getElem?_append_right (le_refl _)]
  simp

theorem filter_no_hyphen (g : List Char) (h : ∀ c ∈ g, c ∈ hexAlphabet) :
    g.filter (· ≠ '-') = g := by
  rw [List.filter_eq_self]
  intro c hc
  simpa using (hexProps c (h c hc)).2.2.2

theorem map_id_of_fix {α : Type} (f : α → α) (l : List α)
    (h : ∀ x ∈ l, f x = x) : l.map f = l := by
  induction l with
  | nil => rfl
  | cons a as ih => simp [h a (by simp), ih (fun x hx => h x (by simp [hx]))]


theorem filter_hyphen_cons (l : List Char) :
    ('-' :: l).filter (· ≠ '-') = l.filter (· ≠ '-') := by simp

theorem toLower_hyphen : ('-' : Char).toLower = '-' := by decide

theorem uuid_slices (a b c d e : List Char) (ha : a.length = 8)
    (hb : b.length = 4) (hc : c.length = 4) (hd : d.length = 4) :
    (a ++ (b ++ (c ++ (d ++ e)))).take 8 = a ∧
      ((a ++ (b ++ (c ++ (d ++ e)))).drop 8).take 4 = b ∧
      ((a ++ (b ++ (c ++ (d ++ e)))).drop 12).take 4 = c ∧
      ((a ++ (b ++ (c ++ (d ++ e)))).drop 16).take 4 = d ∧
      (a ++ (b ++ (c ++ (d ++ e)))).drop 20 = e := by
  refine ⟨List.take_left' ha, ?_, ?_, ?_, ?_⟩
  · rw [List.drop_left' ha]
    exact List.take_left' hb
  · rw [show a ++ (b ++ (c ++ (d ++ e))) = (a ++ b) ++ (c ++ (d ++ e)) by
      simp [List.append_assoc]]
    rw [List.drop_left' (by simp [ha, hb])]
    exact List.take_left' hc
  · rw [show a ++ (b ++ (c ++ (d ++ e))) = ((a ++ b) ++ c) ++ (d ++ e) by
      simp [List.append_assoc]]
    rw [List.drop_left' (by simp [ha, hb, hc])]
    exact List.take_left' hd
  · rw [show a ++ (b ++ (c ++ (d ++ e))) = (((a ++ b) ++ c) ++ d) ++ e by
      simp [List.append_assoc]]
    exact List.drop_left' (by simp [ha, hb, hc, hd])

/-! ### Claim theorems -/

/-- Claim C2: for every 64-bit unsigned integer `v`,
`decodeLong (encodeLong v)` succeeds and returns `v` — the base-62 codec
round-trips every uint64 exactly. -/
theorem decodeLong_encodeLong_roundtrip (v : Nat) (hv : v < M64) :
    decodeLong (encodeLong v) = .ok v :=
  decode_encode v hv

/-- Witness for C2 at the concrete value 12345678901234567890. -/
theorem decodeLong_encodeLong_roundtrip_witness :
    (12345678901234567890 : Nat) < M64 ∧
      decodeLong (encodeLong 12345678901234567890) = .ok 12345678901234567890 :=
  ⟨by decide, decodeLong_encodeLong_roundtrip 12345678901234567890 (by decide)⟩

/-- Claim C3: for every byte sequence `b` of length exactly 16,
`fromBytes b` succeeds, the result's `Bytes` equals `b`, and
bytes 0-7 big-endian form the high half, bytes 8-15 the low half. -/
theorem fromBytes_bytes_roundtrip (b : List Nat) (hlen : b.length = 16)
    (hb : ∀ x ∈ b, x < 256) :
    ∃ k : KUID, fromBytes b = .ok k ∧ kuidBytes k = b ∧
      k.msb = beUint64 (b.take 8) ∧ k.lsb = beUint64 (b.drop 8) := by
  refine ⟨⟨beUint64 (b.take 8), beUint64 (b.drop 8)⟩, ?_, ?_, rfl, rfl⟩
  · rw [fromBytes, if_neg (by simp [hlen])]
  · show putUint64 (beUint64 (b.take 8)) ++ putUint64 (beUint64 (b.drop 8)) = b
    rw [putUint64_beUint64 _ (by simp [hlen])
          (fun x hx => hb x (List.take_subset _ _ hx)),
        putUint64_beUint64 _ (by simp [hlen])
          (fun x hx => hb x (List.drop_subset _ _ hx)),
        List.take_append_drop]

/-- Witness for C3 at the concrete byte list `[0, 1, ..., 15]`. -/
theorem fromBytes_bytes_roundtrip_witness :
    ((List.range 16).length = 16 ∧ ∀ x ∈ List.range 16, x < 256) ∧
      ∃ k : KUID, fromBytes (List.range 16) = .ok k ∧ kuidBytes k = List.range 16 ∧
        k.msb = beUint64 ((List.range 16).take 8) ∧
        k.lsb = beUint64 ((List.range 16).drop 8) :=
  ⟨⟨by decide, by decide⟩, fromBytes_bytes_roundtrip (List.range 16) (by decide) (by decide)⟩

/-- Counterexample to claim C7 as stated: on a 15-byte input, `fromBytes`
fails, but with the ad-hoc `errors.New("byte slice must be exactly 16 bytes")`
error, not with the `ErrInvalidLength` sentinel. -/
theorem fromBytes_err_not_errInvalidLength :
    fromBytes (List.replicate 15 0) = .error .bytesNot16 ∧
      (Except.error .bytesNot16 : Except GoErr KUID) ≠ .error .invalidLength := by
  decide

/-- Claim C7 (amended): for every byte sequence `b` with `b.length ≠ 16`
(including 15 and 17), `fromBytes b` fails with the ad-hoc byte-slice
length error (not the `ErrInvalidLength` sentinel), and for length 16 it
succeeds, reading the 16 bytes directly with no truncation or padding. -/
theorem fromBytes_length_check (b : List Nat) :
    (b.length ≠ 16 → fromBytes b = .error .bytesNot16) ∧
    (b.length = 16 → ∃ k : KUID, fromBytes b = .ok k ∧
      k.msb = beUint64 (b.take 8) ∧ k.lsb = beUint64 (b.drop 8)) := by
  constructor
  · intro h
    rw [fromBytes, if_pos h]
  · intro h
    exact ⟨_, by rw [fromBytes, if_neg (by simp [h])], rfl, rfl⟩

/-- Witness for C7 (amended) at lengths 15, 17 and 16. -/
theorem fromBytes_length_check_witness :
    fromBytes (List.replicate 15 0) = .error .bytesNot16 ∧
      fromBytes (List.replicate 17 0) = .error .bytesNot16 ∧
      ∃ k : KUID, fromBytes (List.replicate 16 7) = .ok k ∧
        k.msb = beUint64 ((List.replicate 16 7).take 8) ∧
        k.lsb = beUint64 ((List.replicate 16 7).drop 8) :=
  ⟨(fromBytes_length_check (List.replicate 15 0)).1 (by decide),
   (fromBytes_length_check (List.replicate 17 0)).1 (by decide),
   (fromBytes_length_check (List.replicate 16 7)).2 (by decide)⟩


/-- Claim C5: for every identifier (every pair of uint64 halves),
`fromString (kuidString k)` succeeds and the result equals `k` under the
`Equal` predicate: the compact-text round-trip is the identity. -/
theorem fromString_kuidString_roundtrip (k : KUID)
    (h1 : k.msb < M64) (h2 : k.lsb < M64) :
    ∃ k' : KUID, fromString (kuidString k) = .ok k' ∧
      kuidEqual k' (some k) = true := by
  refine ⟨k, ?_, by simp [kuidEqual]⟩
  rw [fromString, if_neg (by simp [kuidString_length, size])]
  rw [kuidString, List.take_left' (by simp [encodeLong_length, size]),
      List.drop_left' (by simp [encodeLong_length, size]),
      decode_encode _ h1, decode_encode _ h2]

/-- Witness for C5 at the identifier with halves `(3, 2^64 - 1)`. -/
theorem fromString_kuidString_roundtrip_witness :
    ((3 : Nat) < M64 ∧ (2 ^ 64 - 1 : Nat) < M64) ∧
      ∃ k' : KUID, fromString (kuidString ⟨3, 2 ^ 64 - 1⟩) = .ok k' ∧
        kuidEqual k' (some ⟨3, 2 ^ 64 - 1⟩) = true :=
  ⟨⟨by decide, by decide⟩,
   fromString_kuidString_roundtrip ⟨3, 2 ^ 64 - 1⟩ (by decide) (by decide)⟩

/-- Claim C6: `fromString` rejects every string whose length is not 22 with
`ErrInvalidLength`, rejects a base-62-invalid character in either
11-character half with `ErrInvalidChar`, and on success decodes the first
11 characters into the high half and the last 11 into the low half. -/
theorem fromString_validation (s : List Char) :
    (s.length ≠ 22 → fromString s = .error .invalidLength) ∧
    (s.length = 22 → (∃ c ∈ s.take 11, c ∉ base62Chars) →
      fromString s = .error .invalidChar) ∧
    (s.length = 22 → (∀ c ∈ s.take 11, c ∈ base62Chars) →
      (∃ c ∈ s.drop 11, c ∉ base62Chars) → fromString s = .error .invalidChar) ∧
    (s.length = 22 → (∀ c ∈ s, c ∈ base62Chars) →
      fromString s = .ok ⟨valBE 62 ((s.take 11).map digitOf) % M64,
        valBE 62 ((s.drop 11).map digitOf) % M64⟩) := by
  have htl : s.length = 22 → (s.take 11).length = 11 := by
    intro h; simp [List.length_take, h]
  have hdl : s.length = 22 → (s.drop 11).length = 11 := by
    intro h; simp [List.length_drop, h]
  refine ⟨?_, ?_, ?_, ?_⟩
  · intro h
    rw [fromString, if_pos (by simpa [size] using h)]
  · intro h hbad
    rw [fromString, if_neg (by simp [size, h])]
    have : decodeLong (s.take size) = .error .invalidChar := by
      rw [decodeLong, if_neg (by simp [size, htl h])]
      exact decodeAux_err _ (by simpa [size] using hbad) 0
    rw [this]
  · intro h hgood hbad
    rw [fromString, if_neg (by simp [size, h])]
    rw [show (s.take size) = s.take 11 from rfl,
      decodeLong_ok (s.take 11) (htl h) hgood]
    have : decodeLong (s.drop size) = .error .invalidChar := by
      rw [decodeLong, if_neg (by simp [size, hdl h])]
      exact decodeAux_err _ (by simpa [size] using hbad) 0
    rw [this]
  · intro h hmem
    rw [fromString, if_neg (by simp [size, h])]
    rw [show (s.take size) = s.take 11 from rfl,
      decodeLong_ok (s.take 11) (htl h) (fun c hc => hmem c (List.take_subset _ _ hc))]
    rw [show (s.drop size) = s.drop 11 from rfl,
      decodeLong_ok (s.drop 11) (hdl h) (fun c hc => hmem c (List.drop_subset _ _ hc))]

/-- Witness for C6: a 3-character string, a 22-character string with `'!'`
in the first half, one with `'!'` in the second half, and a valid
22-character string. -/
theorem fromString_validation_witness :
    fromString ['A', 'B', 'C'] = .error .invalidLength ∧
      fromString ('!' :: List.replicate 21 '0') = .error .invalidChar ∧
      fromString (List.replicate 21 '0' ++ ['!']) = .error .invalidChar ∧
      fromString (List.replicate 22 'z') =
        .ok ⟨valBE 62 (((List.replicate 22 'z').take 11).map digitOf) % M64,
          valBE 62 (((List.replicate 22 'z').drop 11).map digitOf) % M64⟩ :=
  ⟨(fromString_validation ['A', 'B', 'C']).1 (by decide),
   (fromString_validation ('!' :: List.replicate 21 '0')).2.1 (by decide) (by decide),
   (fromString_validation (List.replicate 21 '0' ++ ['!'])).2.2.1 (by decide)
     (by decide) (by decide),
   (fromString_validation (List.replicate 22 'z')).2.2.2 (by decide) (by decide)⟩

/-- Claim C9: `decodeLong` succeeds on every 11-character alphabet-valid
string, returning the base-62 value reduced modulo `2^64`; in particular
`"zzzzzzzzzzz"` decodes without error to `(62^11 - 1) % 2^64`. -/
theorem decodeLong_total_wrap (s : List Char) (hlen : s.length = 11)
    (hmem : ∀ c ∈ s, c ∈ base62Chars) :
    decodeLong s = .ok (valBE 62 (s.map digitOf) % 2 ^ 64) ∧
      decodeLong ("zzzzzzzzzzz".toList) = .ok ((62 ^ 11 - 1) % 2 ^ 64) :=
  ⟨decodeLong_ok s hlen hmem, by decide⟩

/-- Witness for C9 at the all-`'z'` string. -/
theorem decodeLong_total_wrap_witness :
    ((List.replicate 11 'z').length = 11 ∧
        ∀ c ∈ List.replicate 11 'z', c ∈ base62Chars) ∧
      decodeLong (List.replicate 11 'z') =
        .ok (valBE 62 ((List.replicate 11 'z').map digitOf) % 2 ^ 64) ∧
      decodeLong ("zzzzzzzzzzz".toList) = .ok ((62 ^ 11 - 1) % 2 ^ 64) :=
  ⟨⟨by decide, by decide⟩,
   decodeLong_total_wrap (List.replicate 11 'z') (by decide) (by decide)⟩

/-- Claim C10: for non-absent identifiers, the `Equal` predicate holds
exactly when the 22-character compact strings coincide — the compact
encoding is injective on identifier values. -/
theorem kuidEqual_iff_string_eq (a b : KUID)
    (ha1 : a.msb < M64) (ha2 : a.lsb < M64)
    (hb1 : b.msb < M64) (hb2 : b.lsb < M64) :
    kuidEqual a (some b) = true ↔ kuidString a = kuidString b := by
  constructor
  · intro h
    simp only [kuidEqual, Bool.and_eq_true, beq_iff_eq] at h
    rw [kuidString, kuidString, h.1, h.2]
  · intro h
    rw [kuidString, kuidString] at h
    obtain ⟨h1, h2⟩ := List.append_inj h (by simp [encodeLong_length])
    simp [kuidEqual, encodeLong_inj _ _ ha1 hb1 h1, encodeLong_inj _ _ ha2 hb2 h2]

/-- Witness for C10 at the identifiers `(5, 6)` and `(5, 7)`. -/
theorem kuidEqual_iff_string_eq_witness :
    ((5 : Nat) < M64 ∧ (6 : Nat) < M64 ∧ (7 : Nat) < M64) ∧
      (kuidEqual ⟨5, 6⟩ (some ⟨5, 7⟩) = true ↔
        kuidString ⟨5, 6⟩ = kuidString ⟨5, 7⟩) :=
  ⟨⟨by decide, by decide, by decide⟩,
   kuidEqual_iff_string_eq ⟨5, 6⟩ ⟨5, 7⟩ (by decide) (by decide) (by decide) (by decide)⟩

/-- Claim C8: `encodeLong` always produces exactly 11 characters, all from
the base-62 alphabet, left-padded with `'0'` (the alphabet's index-0
symbol); and the all-zero UUID converts to 22 `'0'` characters of compact
text and 16 zero bytes. -/
theorem encodeLong_fixed_width (v n : Nat) (hn : n ≤ 11) (hv : v < 62 ^ n) :
    (encodeLong v).length = 11 ∧
      (∀ c ∈ encodeLong v, c ∈ base62Chars) ∧
      (encodeLong v).take (11 - n) = List.replicate (11 - n) '0' ∧
      (fromUUID zeroUUID = .ok ⟨0, 0⟩ ∧
        kuidString ⟨0, 0⟩ = List.replicate 22 '0' ∧
        kuidBytes ⟨0, 0⟩ = List.replicate 16 0) := by
  refine ⟨encodeLong_length v, mem_encodeLong v, ?_, by decide, by decide, by decide⟩
  have h11 : 11 = n + (11 - n) := by omega
  rw [encodeLong_eq, h11,
    digitsBE_leading_zeros 62 (by norm_num) (11 - n) n v hv]
  rw [List.map_append, List.map_replicate]
  rw [List.take_left' (by simp)]
  rw [show base62Chars.getD 0 '0' = '0' from rfl]
  congr 1
  omega

/-- Witness for C8 at `v = 61` (one significant digit). -/
theorem encodeLong_fixed_width_witness :
    ((1 : Nat) ≤ 11 ∧ (61 : Nat) < 62 ^ 1) ∧
      ((encodeLong 61).length = 11 ∧
        (∀ c ∈ encodeLong 61, c ∈ base62Chars) ∧
        (encodeLong 61).take (11 - 1) = List.replicate (11 - 1) '0' ∧
        (fromUUID zeroUUID = .ok ⟨0, 0⟩ ∧
          kuidString ⟨0, 0⟩ = List.replicate 22 '0' ∧
          kuidBytes ⟨0, 0⟩ = List.replicate 16 0)) :=
  ⟨⟨by decide, by decide⟩, encodeLong_fixed_width 61 1 (by decide) (by decide)⟩

/-- Claim C1 is false of the code, which contradicts the package's own
documentation: the guard `!strings.HasPrefix(uuid, "") && len(uuid) != 36`
is always false (the empty-prefix test is always true), so the length
check is dead code. This 37-character input (a doubled fourth hyphen) is
accepted and returns the zero identifier instead of failing with
`ErrInvalidUUID`, and the empty string panics at `uuid[8]` instead of
returning an error. -/
theorem fromUUID_dead_length_check :
    c1Input.length = 37 ∧ fromUUID c1Input = .ok ⟨0, 0⟩ ∧
      fromUUID [] = .panicked := by
  decide

/-- Claim C4: every correctly hyphenated 36-character UUID string with 32
hex digits is accepted by `fromUUID`, and `toUUID` of the result is the
input with all hex digits lowercased; an already-lowercase input round-trips
unchanged. -/
theorem fromUUID_toUUID_roundtrip (g1 g2 g3 g4 g5 u : List Char)
    (h1 : g1.length = 8) (h2 : g2.length = 4) (h3 : g3.length = 4)
    (h4 : g4.length = 4) (h5 : g5.length = 12)
    (hx : ∀ c ∈ g1 ++ g2 ++ g3 ++ g4 ++ g5, c ∈ hexAlphabet)
    (hu : u = g1 ++ ['-'] ++ g2 ++ ['-'] ++ g3 ++ ['-'] ++ g4 ++ ['-'] ++ g5) :
    ∃ k : KUID, fromUUID u = .ok k ∧ toUUID k = u.map Char.toLower ∧
      ((∀ c ∈ u, c.toLower = c) → toUUID k = u) := by
  have hx1 : ∀ c ∈ g1, c ∈ hexAlphabet := fun c hc => hx c (by simp [hc])
  have hx2 : ∀ c ∈ g2, c ∈ hexAlphabet := fun c hc => hx c (by simp [hc])
  have hx3 : ∀ c ∈ g3, c ∈ hexAlphabet := fun c hc => hx c (by simp [hc])
  have hx4 : ∀ c ∈ g4, c ∈ hexAlphabet := fun c hc => hx c (by simp [hc])
  have hx5 : ∀ c ∈ g5, c ∈ hexAlphabet := fun c hc => hx c (by simp [hc])
  have hu9 : u = g1 ++ '-' :: (g2 ++ '-' :: (g3 ++ '-' :: (g4 ++ '-' :: g5))) := by
    rw [hu]; simp [List.append_assoc]
  have e8 : u[8]? = some '-' := by
    rw [hu9]; exact getIdx_append g1 _ '-' 8 h1
  have e13 : u[13]? = some '-' := by
    rw [hu9, show g1 ++ '-' :: (g2 ++ '-' :: (g3 ++ '-' :: (g4 ++ '-' :: g5)))
        = (g1 ++ '-' :: g2) ++ '-' :: (g3 ++ '-' :: (g4 ++ '-' :: g5)) by
      simp [List.append_assoc]]
    exact getIdx_append _ _ '-' 13 (by simp [h1, h2])
  have e18 : u[18]? = some '-' := by
    rw [hu9, show g1 ++ '-' :: (g2 ++ '-' :: (g3 ++ '-' :: (g4 ++ '-' :: g5)))
        = ((g1 ++ '-' :: g2) ++ '-' :: g3) ++ '-' :: (g4 ++ '-' :: g5) by
      simp [List.append_assoc]]
    exact getIdx_append _ _ '-' 18 (by simp [h1, h2, h3])
  have e23 : u[23]? = some '-' := by
    rw [hu9, show g1 ++ '-' :: (g2 ++ '-' :: (g3 ++ '-' :: (g4 ++ '-' :: g5)))
        = (((g1 ++ '-' :: g2) ++ '-' :: g3) ++ '-' :: g4) ++ '-' :: g5 by
      simp [List.append_assoc]]
    exact getIdx_append _ _ '-' 23 (by simp [h1, h2, h3, h4])
  have hclean : u.filter (· ≠ '-') = g1 ++ (g2 ++ (g3 ++ (g4 ++ g5))) := by
    rw [hu9]
    simp only [List.filter_append, filter_hyphen_cons, List.filter_cons]
    rw [filter_no_hyphen g1 hx1, filter_no_hyphen g2 hx2, filter_no_hyphen g3 hx3,
        filter_no_hyphen g4 hx4, filter_no_hyphen g5 hx5]
    simp
  have hlen32 : (g1 ++ (g2 ++ (g3 ++ (g4 ++ g5)))).length = 32 := by
    simp [h1, h2, h3, h4, h5]
  have hhex : ∀ c ∈ g1 ++ (g2 ++ (g3 ++ (g4 ++ g5))), c ∈ hexAlphabet := by
    intro c hc
    apply hx
    simp only [List.mem_append] at hc ⊢
    tauto
  obtain ⟨bs, hbs, hblen, hblt, henc⟩ :=
    hexDecode_ok 16 (g1 ++ (g2 ++ (g3 ++ (g4 ++ g5)))) (by omega) hhex
  have hBytes : kuidBytes ⟨beUint64 (bs.take 8), beUint64 (bs.drop 8)⟩ = bs := by
    show putUint64 (beUint64 (bs.take 8)) ++ putUint64 (beUint64 (bs.drop 8)) = bs
    rw [putUint64_beUint64 _ (by simp [hblen]) (fun x hx => hblt x (List.take_subset _ _ hx)),
        putUint64_beUint64 _ (by simp [hblen]) (fun x hx => hblt x (List.drop_subset _ _ hx)),
        List.take_append_drop]
  have hround : toUUID ⟨beUint64 (bs.take 8), beUint64 (bs.drop 8)⟩
      = u.map Char.toLower := by
    obtain ⟨t8, t12, t16, t20, d20⟩ :=
      uuid_slices (g1.map Char.toLower) (g2.map Char.toLower) (g3.map Char.toLower)
        (g4.map Char.toLower) (g5.map Char.toLower)
        (by simp [h1]) (by simp [h2]) (by simp [h3]) (by simp [h4])
    simp only [toUUID, hBytes, henc, List.map_append]
    rw [t8, t12, t16, t20, d20, hu9]
    simp [List.map_append, List.map_cons, toLower_hyphen, List.append_assoc]
  refine ⟨⟨beUint64 (bs.take 8), beUint64 (bs.drop 8)⟩, ?_, hround, fun hfix => by
    rw [hround, map_id_of_fix _ _ hfix]⟩
  · simp only [fromUUID, strHasPre_nil, Bool.not_true, Bool.false_and, Bool.false_eq_true,
      if_false, e8, e13, e18, e23]
    rw [hclean]
    simp only [bne_self_eq_false, Bool.false_eq_true, if_false]
    rw [if_neg (by simp [hlen32]), if_neg (not_not_intro hhex), hbs]
    show exceptToResult (fromBytes bs) = _
    rw [fromBytes, if_neg (by simp [hblen])]
    rfl

/-- Witness for C4 at the mixed-case UUID `"123E4567-E89B-12D3-A456-426614174000"`. -/
theorem fromUUID_toUUID_roundtrip_witness :
    ∃ k : KUID,
      fromUUID ("123E4567-E89B-12D3-A456-426614174000".toList) = .ok k ∧
        toUUID k = ("123E4567-E89B-12D3-A456-426614174000".toList).map Char.toLower ∧
        ((∀ c ∈ "123E4567-E89B-12D3-A456-426614174000".toList, c.toLower = c) →
          toUUID k = "123E4567-E89B-12D3-A456-426614174000".toList) :=
  fromUUID_toUUID_roundtrip ("123E4567".toList) ("E89B".toList) ("12D3".toList)
    ("A456".toList) ("426614174000".toList)
    ("123E4567-E89B-12D3-A456-426614174000".toList)
    (by decide) (by decide) (by decide) (by decide) (by decide) (by decide) (by decide)


end Kuid
